import Mathlib

/-!
Verification model of the `anymap` crate (`src/lib.rs`).

The crate stores heterogeneously-typed values in a `HashMap<K, Value>`,
where `Value` wraps a `Box<dyn Any>`.  We embed the Rust type system's
runtime type identity (`TypeId`) as an abstract tag type `Ty` with
decidable equality, together with an interpretation `El : Ty → Type`
giving the payload type of each tag.  A `Value` is then a dependent pair
of a tag and a payload of that tag's type, exactly mirroring a boxed
`dyn Any` (a vtable-identified type plus its data).

The backing `HashMap<K, Value>` is modelled as an association list with
the standard hash-map semantics: lookup finds the (unique) entry for a
key, insert overwrites in place, remove deletes the entry.  Real hash
maps never hold two entries with the same key; this invariant is the
`WF` predicate below, and `Reachable` characterises the states that the
public API can produce.
-/

set_option autoImplicit false

universe u v

variable {K : Type u} {Ty : Type u} {El : Ty → Type v}

/-- Model of `struct Value { inner: Box<dyn Any> }`: a runtime type tag
together with a payload of that tag's type. -/
structure Value (Ty : Type u) (El : Ty → Type v) where
  ty : Ty
  payload : El ty

/-- `Value::new<T: Any>(value: T)`: wrap a payload with its type tag. -/
def Value.new (T : Ty) (value : El T) : Value Ty El :=
  ⟨T, value⟩

/-- `Value::is::<T>()`: `(*self.inner).is::<T>()`, exact runtime type
identity. -/
def Value.is [DecidableEq Ty] (v : Value Ty El) (T : Ty) : Bool :=
  decide (v.ty = T)

/-- `Value::as_type::<T>()`: `(*self.inner).downcast_ref::<T>()`, which
returns the payload exactly when the runtime type is `T`. -/
def Value.as_type [DecidableEq Ty] (v : Value Ty El) (T : Ty) : Option (El T) :=
  if h : v.ty = T then some (h ▸ v.payload) else none

/-- `Value::into_inner()`: surrender the boxed payload (tag and data). -/
def Value.into_inner (v : Value Ty El) : Sigma El :=
  ⟨v.ty, v.payload⟩

instance [DecidableEq Ty] [∀ t : Ty, DecidableEq (El t)] : DecidableEq (Value Ty El) :=
  fun a b =>
    decidable_of_iff (a.into_inner = b.into_inner) (by
      cases a; cases b
      simp [Value.into_inner, Value.mk.injEq, Sigma.mk.inj_iff])

/-- Model of `struct AnyMap<K> { map: HashMap<K, Value> }`; the hash map
is represented by its association list of entries. -/
structure AnyMap (K : Type u) (Ty : Type u) (El : Ty → Type v) where
  map : List (K × Value Ty El)

/-- `HashMap::get`: first entry stored under the key, if any. -/
def lookupList [DecidableEq K] (k : K) : List (K × Value Ty El) → Option (Value Ty El)
  | [] => none
  | p :: rest => if p.1 = k then some p.2 else lookupList k rest

/-- `HashMap::insert`: overwrite the entry for the key in place and
return the previous value, or append a fresh entry. -/
def insertList [DecidableEq K] (k : K) (v : Value Ty El) :
    List (K × Value Ty El) → Option (Value Ty El) × List (K × Value Ty El)
  | [] => (none, [(k, v)])
  | p :: rest =>
    if p.1 = k then (some p.2, (k, v) :: rest)
    else
      let r := insertList k v rest
      (r.1, p :: r.2)

/-- `HashMap::remove`: delete the entry for the key and return its
value, if any. -/
def removeList [DecidableEq K] (k : K) :
    List (K × Value Ty El) → Option (Value Ty El) × List (K × Value Ty El)
  | [] => (none, [])
  | p :: rest =>
    if p.1 = k then (some p.2, rest)
    else
      let r := removeList k rest
      (r.1, p :: r.2)

/-- `AnyMap::new()`: an empty map. -/
def AnyMap.new : AnyMap K Ty El :=
  ⟨[]⟩

/-- `AnyMap::with_capacity(capacity)`: an empty map (capacity is an
allocation hint with no observable content). -/
def AnyMap.with_capacity (_capacity : Nat) : AnyMap K Ty El :=
  ⟨[]⟩

/-- `AnyMap::len()`: `self.map.len()`, the number of stored entries. -/
def AnyMap.len (m : AnyMap K Ty El) : Nat :=
  m.map.length

/-- `AnyMap::is_empty()`: `self.map.is_empty()`. -/
def AnyMap.is_empty (m : AnyMap K Ty El) : Bool :=
  m.map.isEmpty

/-- `AnyMap::clear()`: `self.map.clear()`, removing every entry. -/
def AnyMap.clear (_m : AnyMap K Ty El) : AnyMap K Ty El :=
  ⟨[]⟩

/-- `AnyMap::get(key)`: `self.map.get(key)`. -/
def AnyMap.get [DecidableEq K] (m : AnyMap K Ty El) (key : K) : Option (Value Ty El) :=
  lookupList key m.map

/-- `AnyMap::get_typed::<T>(key)`:
`self.map.get(key).and_then(|v| v.as_type::<T>())`. -/
def AnyMap.get_typed [DecidableEq K] [DecidableEq Ty]
    (m : AnyMap K Ty El) (T : Ty) (key : K) : Option (El T) :=
  (m.get key).bind (fun v => v.as_type T)

/-- `AnyMap::contains_key(key)`: `self.map.contains_key(key)`; a hash
map contains a key exactly when `get` finds an entry. -/
def AnyMap.contains_key [DecidableEq K] (m : AnyMap K Ty El) (key : K) : Bool :=
  (m.get key).isSome

/-- `AnyMap::insert_val(key, value)`: `self.map.insert(key, value)`,
returning the displaced value and the updated map. -/
def AnyMap.insert_val [DecidableEq K] (m : AnyMap K Ty El) (key : K)
    (value : Value Ty El) : Option (Value Ty El) × AnyMap K Ty El :=
  let r := insertList key value m.map
  (r.1, ⟨r.2⟩)

/-- `AnyMap::insert::<T>(key, value)`:
`self.map.insert(key, Value::new(value))`. -/
def AnyMap.insert [DecidableEq K] (m : AnyMap K Ty El) (key : K)
    (T : Ty) (value : El T) : Option (Value Ty El) × AnyMap K Ty El :=
  m.insert_val key (Value.new T value)

/-- `AnyMap::remove(key)`: `self.map.remove(key)`, returning the evicted
value and the updated map. -/
def AnyMap.remove [DecidableEq K] (m : AnyMap K Ty El) (key : K) :
    Option (Value Ty El) × AnyMap K Ty El :=
  let r := removeList key m.map
  (r.1, ⟨r.2⟩)

/-- `impl Default for AnyMap`: `fn default() { AnyMap::new() }`. -/
instance : Inhabited (AnyMap K Ty El) :=
  ⟨AnyMap.new⟩

/-- The hash-map representation invariant: no two entries share a key. -/
def AnyMap.WF (m : AnyMap K Ty El) : Prop :=
  (m.map.map Prod.fst).Nodup

/-- The number of distinct keys currently present in the map. -/
def AnyMap.distinctKeyCount [DecidableEq K] (m : AnyMap K Ty El) : Nat :=
  (m.map.map Prod.fst).dedup.length

/-- States producible through the public `AnyMap` API. -/
inductive AnyMap.Reachable [DecidableEq K] : AnyMap K Ty El → Prop where
  | new : AnyMap.Reachable AnyMap.new
  | with_capacity (n : Nat) : AnyMap.Reachable (AnyMap.with_capacity n)
  | insert_val {m : AnyMap K Ty El} (k : K) (v : Value Ty El) :
      AnyMap.Reachable m → AnyMap.Reachable (m.insert_val k v).2
  | remove {m : AnyMap K Ty El} (k : K) :
      AnyMap.Reachable m → AnyMap.Reachable (m.remove k).2
  | clear {m : AnyMap K Ty El} :
      AnyMap.Reachable m → AnyMap.Reachable m.clear

/-- Concrete instantiation used to exercise the model: keys are
naturals, and the tag universe interprets every tag as `Nat`. -/
abbrev TEl : Nat → Type :=
  fun _ => Nat

/-- Concrete map instance for witnesses. -/
abbrev TMap : Type :=
  AnyMap Nat Nat TEl

/-! ### Helper lemmas about `Value` -/

theorem as_type_new_self [DecidableEq Ty] (T : Ty) (v : El T) :
    (Value.new T v).as_type T = some v := by
  simp [Value.as_type, Value.new]

theorem as_type_new_ne [DecidableEq Ty] (T U : Ty) (v : El T) (h : U ≠ T) :
    (Value.new T v).as_type U = none := by
  simp [Value.as_type, Value.new, Ne.symm h]

theorem as_type_isSome_eq_is [DecidableEq Ty] (w : Value Ty El) (T : Ty) :
    (w.as_type T).isSome = w.is T := by
  by_cases h : w.ty = T
  · simp [Value.as_type, Value.is, h]
  · simp [Value.as_type, Value.is, h]

theorem as_type_eq_none_of_is_false [DecidableEq Ty] (w : Value Ty El) (T : Ty)
    (h : w.is T = false) : w.as_type T = none := by
  have h' : ¬ w.ty = T := by simpa [Value.is] using h
  simp [Value.as_type, h']

/-! ### Helper lemmas about the association-list hash map -/

theorem lookup_insertList_self [DecidableEq K] (k : K) (v : Value Ty El)
    (l : List (K × Value Ty El)) : lookupList k (insertList k v l).2 = some v := by
  induction l with
  | nil => simp [insertList, lookupList]
  | cons p rest ih =>
    by_cases h : p.1 = k
    · simp [insertList, h, lookupList]
    · simp [insertList, h, lookupList, ih]

theorem lookup_insertList_ne [DecidableEq K] (k k' : K) (hne : k' ≠ k)
    (v : Value Ty El) (l : List (K × Value Ty El)) :
    lookupList k' (insertList k v l).2 = lookupList k' l := by
  induction l with
  | nil => simp [insertList, lookupList, Ne.symm hne]
  | cons p rest ih =>
    by_cases h : p.1 = k
    · simp [insertList, h, lookupList, Ne.symm hne]
    · simp [insertList, h, lookupList, ih]

theorem insertList_fst [DecidableEq K] (k : K) (v : Value Ty El)
    (l : List (K × Value Ty El)) : (insertList k v l).1 = lookupList k l := by
  induction l with
  | nil => simp [insertList, lookupList]
  | cons p rest ih =>
    by_cases h : p.1 = k
    · simp [insertList, h, lookupList]
    · simp [insertList, h, lookupList, ih]

theorem removeList_fst [DecidableEq K] (k : K) (l : List (K × Value Ty El)) :
    (removeList k l).1 = lookupList k l := by
  induction l with
  | nil => simp [removeList, lookupList]
  | cons p rest ih =>
    by_cases h : p.1 = k
    · simp [removeList, h, lookupList]
    · simp [removeList, h, lookupList, ih]

theorem lookup_eq_none_of_not_mem_keys [DecidableEq K] (k : K)
    (l : List (K × Value Ty El)) (h : k ∉ l.map Prod.fst) :
    lookupList k l = none := by
  induction l with
  | nil => simp [lookupList]
  | cons p rest ih =>
    simp only [List.map_cons, List.mem_cons] at h
    push_neg at h
    have hp : ¬ p.1 = k := fun he => h.1 he.symm
    simp [lookupList, hp, ih h.2]

theorem lookup_removeList_self [DecidableEq K] (k : K)
    (l : List (K × Value Ty El)) (hnd : (l.map Prod.fst).Nodup) :
    lookupList k (removeList k l).2 = none := by
  induction l with
  | nil => simp [removeList, lookupList]
  | cons p rest ih =>
    simp only [List.map_cons, List.nodup_cons] at hnd
    by_cases h : p.1 = k
    · subst h
      simpa [removeList] using lookup_eq_none_of_not_mem_keys p.1 rest hnd.1
    · simp [removeList, h, lookupList, ih hnd.2]

theorem lookup_removeList_ne [DecidableEq K] (k k' : K) (hne : k' ≠ k)
    (l : List (K × Value Ty El)) :
    lookupList k' (removeList k l).2 = lookupList k' l := by
  induction l with
  | nil => simp [removeList]
  | cons p rest ih =>
    by_cases h : p.1 = k
    · simp [removeList, h, lookupList, Ne.symm hne]
    · simp [removeList, h, lookupList, ih]

theorem removeList_of_lookup_none [DecidableEq K] (k : K)
    (l : List (K × Value Ty El)) (h : lookupList k l = none) :
    removeList k l = (none, l) := by
  induction l with
  | nil => simp [removeList]
  | cons p rest ih =>
    by_cases hp : p.1 = k
    · simp [lookupList, hp] at h
    · simp only [lookupList, hp, if_false] at h
      simp [removeList, hp, ih h]

theorem mem_keys_insertList [DecidableEq K] (a k : K) (v : Value Ty El)
    (l : List (K × Value Ty El)) :
    a ∈ (insertList k v l).2.map Prod.fst ↔ a = k ∨ a ∈ l.map Prod.fst := by
  induction l with
  | nil => simp [insertList]
  | cons p rest ih =>
    by_cases h : p.1 = k
    · subst h
      simp [insertList]
    · simp [insertList, h, ih]
      tauto

theorem nodup_keys_insertList [DecidableEq K] (k : K) (v : Value Ty El)
    (l : List (K × Value Ty El)) (hnd : (l.map Prod.fst).Nodup) :
    ((insertList k v l).2.map Prod.fst).Nodup := by
  induction l with
  | nil => simp [insertList]
  | cons p rest ih =>
    simp only [List.map_cons, List.nodup_cons] at hnd
    by_cases h : p.1 = k
    · subst h
      simpa [insertList, List.nodup_cons] using hnd
    · simp only [insertList, if_neg h, List.map_cons, List.nodup_cons]
      refine ⟨?_, ih hnd.2⟩
      intro hmem
      rcases (mem_keys_insertList p.1 k v rest).mp hmem with he | hm
      · exact h he
      · exact hnd.1 hm

theorem keys_removeList_sublist [DecidableEq K] (k : K)
    (l : List (K × Value Ty El)) :
    ((removeList k l).2.map Prod.fst).Sublist (l.map Prod.fst) := by
  induction l with
  | nil => simp [removeList]
  | cons p rest ih =>
    by_cases h : p.1 = k
    · simp only [removeList, h, if_pos rfl, List.map_cons]
      exact (List.sublist_cons_self _ _)
    · simp only [removeList, h, if_false, List.map_cons]
      exact ih.cons₂ p.1

theorem nodup_keys_removeList [DecidableEq K] (k : K)
    (l : List (K × Value Ty El)) (hnd : (l.map Prod.fst).Nodup) :
    ((removeList k l).2.map Prod.fst).Nodup :=
  hnd.sublist (keys_removeList_sublist k l)

theorem reachable_wf [DecidableEq K] (m : AnyMap K Ty El)
    (h : m.Reachable) : m.WF := by
  induction h with
  | new => simp [AnyMap.WF, AnyMap.new]
  | with_capacity n => simp [AnyMap.WF, AnyMap.with_capacity]
  | insert_val k v _ ih => exact nodup_keys_insertList k v _ ih
  | remove k _ ih => exact nodup_keys_removeList k _ ih
  | clear _ _ => simp [AnyMap.WF, AnyMap.clear]

/-! ### Wrapper lemmas restating the list lemmas on `AnyMap` -/

theorem anyMap_insert_val_fst [DecidableEq K] (m : AnyMap K Ty El) (k : K)
    (v : Value Ty El) : (m.insert_val k v).1 = m.get k :=
  insertList_fst k v m.map

theorem anyMap_get_insert_val_self [DecidableEq K] (m : AnyMap K Ty El) (k : K)
    (v : Value Ty El) : (m.insert_val k v).2.get k = some v :=
  lookup_insertList_self k v m.map

theorem anyMap_get_insert_val_ne [DecidableEq K] (m : AnyMap K Ty El) (k k' : K)
    (hne : k' ≠ k) (v : Value Ty El) : (m.insert_val k v).2.get k' = m.get k' :=
  lookup_insertList_ne k k' hne v m.map

theorem anyMap_remove_fst [DecidableEq K] (m : AnyMap K Ty El) (k : K) :
    (m.remove k).1 = m.get k :=
  removeList_fst k m.map

theorem anyMap_get_remove_self [DecidableEq K] (m : AnyMap K Ty El) (k : K)
    (hwf : m.WF) : (m.remove k).2.get k = none :=
  lookup_removeList_self k m.map hwf

theorem anyMap_get_remove_ne [DecidableEq K] (m : AnyMap K Ty El) (k k' : K)
    (hne : k' ≠ k) : (m.remove k).2.get k' = m.get k' :=
  lookup_removeList_ne k k' hne m.map

theorem anyMap_remove_absent [DecidableEq K] (m : AnyMap K Ty El) (k : K)
    (h : m.get k = none) : m.remove k = (none, m) := by
  have hr := removeList_of_lookup_none k m.map h
  simp [AnyMap.remove, hr]

theorem contains_key_eq_false_iff [DecidableEq K] (m : AnyMap K Ty El) (k : K) :
    m.contains_key k = false ↔ m.get k = none := by
  unfold AnyMap.contains_key
  cases m.get k <;> simp

/-! ### The claims -/

/-- C1: after `insert(k, v)` the key is present and `get_typed::<T>(k)`
returns the inserted value; inserting under an absent key returns `None`;
a second insert under the same key returns `Some` of the previously
stored `Value` and leaves only the new value retrievable under `k`. -/
theorem anyMap_insert_spec [DecidableEq K] [DecidableEq Ty]
    (m : AnyMap K Ty El) (k : K) (T : Ty) (v : El T) :
    (m.insert k T v).2.contains_key k = true ∧
    (m.insert k T v).2.get_typed T k = some v ∧
    (m.contains_key k = false → (m.insert k T v).1 = none) ∧
    (∀ (U : Ty) (w : El U),
      ((m.insert k T v).2.insert k U w).1 = some (Value.new T v) ∧
      ((m.insert k T v).2.insert k U w).2.get k = some (Value.new U w) ∧
      ((m.insert k T v).2.insert k U w).2.get_typed U k = some w) := by
  have hget : (m.insert k T v).2.get k = some (Value.new T v) :=
    anyMap_get_insert_val_self m k (Value.new T v)
  refine ⟨?_, ?_, ?_, ?_⟩
  · simp [AnyMap.contains_key, hget]
  · simp [AnyMap.get_typed, hget, as_type_new_self]
  · intro hno
    have hn : m.get k = none := (contains_key_eq_false_iff m k).mp hno
    calc (m.insert k T v).1 = m.get k := anyMap_insert_val_fst m k (Value.new T v)
    _ = none := hn
  · intro U w
    have hget2 : ((m.insert k T v).2.insert k U w).2.get k = some (Value.new U w) :=
      anyMap_get_insert_val_self _ k (Value.new U w)
    refine ⟨?_, hget2, ?_⟩
    · calc ((m.insert k T v).2.insert k U w).1 = (m.insert k T v).2.get k :=
        anyMap_insert_val_fst _ k (Value.new U w)
      _ = some (Value.new T v) := hget
    · simp [AnyMap.get_typed, hget2, as_type_new_self]

/-- C1 witness at a concrete map. -/
theorem anyMap_insert_spec_witness :
    ((AnyMap.new : TMap).insert 1 0 5).2.contains_key 1 = true ∧
    ((AnyMap.new : TMap).insert 1 0 5).2.get_typed 0 1 = some 5 ∧
    ((AnyMap.new : TMap).insert 1 0 5).1 = none ∧
    (((AnyMap.new : TMap).insert 1 0 5).2.insert 1 2 7).1 = some (Value.new 0 5) ∧
    (((AnyMap.new : TMap).insert 1 0 5).2.insert 1 2 7).2.get 1 = some (Value.new 2 7) := by
  have h := anyMap_insert_spec (AnyMap.new : TMap) 1 0 5
  exact ⟨h.1, h.2.1, h.2.2.1 (by decide), (h.2.2.2 2 7).1, (h.2.2.2 2 7).2.1⟩

/-- C2: `get_typed::<T>(k)` is the composition of `get(k)` with
`as_type::<T>()`, and returns `none` both when the key is absent and
when the stored value has a different runtime type than `T`. -/
theorem anyMap_get_typed_spec [DecidableEq K] [DecidableEq Ty]
    (m : AnyMap K Ty El) (T : Ty) (k : K) :
    m.get_typed T k = (m.get k).bind (fun v => v.as_type T) ∧
    (m.contains_key k = false → m.get_typed T k = none) ∧
    (∀ v : Value Ty El, m.get k = some v → v.is T = false → m.get_typed T k = none) := by
  refine ⟨rfl, ?_, ?_⟩
  · intro hno
    have hget := (contains_key_eq_false_iff m k).mp hno
    simp [AnyMap.get_typed, hget]
  · intro v hv hisf
    simp [AnyMap.get_typed, hv, as_type_eq_none_of_is_false v T hisf]

/-- C2 witness: absent key and mismatched type both yield `none`. -/
theorem anyMap_get_typed_spec_witness :
    ((AnyMap.new : TMap).insert 1 0 5).2.get_typed 0 2 = none ∧
    ((AnyMap.new : TMap).insert 1 0 5).2.get_typed 2 1 = none := by
  have h := anyMap_get_typed_spec ((AnyMap.new : TMap).insert 1 0 5).2 0 2
  have h2 := anyMap_get_typed_spec ((AnyMap.new : TMap).insert 1 0 5).2 2 1
  exact ⟨h.2.1 (by decide), h2.2.2 (Value.new 0 5) (by decide) (by decide)⟩

/-- C3: `Value::new(v).is::<T>()` is true for the constructed type `T`
and false for every other type `U`; type identity is exact. -/
theorem value_is_spec [DecidableEq Ty] (T : Ty) (v : El T) :
    (Value.new T v).is T = true ∧
    ∀ U : Ty, U ≠ T → (Value.new T v).is U = false := by
  constructor
  · simp [Value.is, Value.new]
  · intro U hU
    simp [Value.is, Value.new, Ne.symm hU]

/-- C3 witness at concrete tags. -/
theorem value_is_spec_witness :
    (Value.new 0 5 : Value Nat TEl).is 0 = true ∧
    (Value.new 0 5 : Value Nat TEl).is 1 = false := by
  have h := @value_is_spec Nat TEl _ 0 5
  exact ⟨h.1, h.2 1 (by decide)⟩

/-- C4: `as_type::<T>()` on `Value::new(v)` returns the payload for the
constructed type and `none` for any other type; it succeeds exactly when
`is::<T>()` holds. -/
theorem value_as_type_spec [DecidableEq Ty] (T : Ty) (v : El T) :
    (Value.new T v).as_type T = some v ∧
    (∀ U : Ty, U ≠ T → (Value.new T v).as_type U = none) ∧
    (∀ (w : Value Ty El) (U : Ty), (w.as_type U).isSome = w.is U) :=
  ⟨as_type_new_self T v, fun U hU => as_type_new_ne T U v hU,
   fun w U => as_type_isSome_eq_is w U⟩

/-- C4 witness at concrete tags. -/
theorem value_as_type_spec_witness :
    (Value.new 0 5 : Value Nat TEl).as_type 0 = some 5 ∧
    (Value.new 0 5 : Value Nat TEl).as_type 1 = none := by
  have h := @value_as_type_spec Nat TEl _ 0 5
  exact ⟨h.1, h.2.1 1 (by decide)⟩

/-- C5: after `remove(k)` the key is gone, a second `remove(k)` returns
`None`, and `remove` returns exactly the previously stored value (`Some`
iff the key was present). -/
theorem anyMap_remove_spec [DecidableEq K] (m : AnyMap K Ty El) (k : K)
    (hwf : m.WF) :
    (m.remove k).2.contains_key k = false ∧
    ((m.remove k).2.remove k).1 = none ∧
    (m.remove k).1 = m.get k ∧
    (m.remove k).1.isSome = m.contains_key k := by
  have h1 : (m.remove k).2.get k = none := anyMap_get_remove_self m k hwf
  refine ⟨?_, ?_, anyMap_remove_fst m k, ?_⟩
  · simp [AnyMap.contains_key, h1]
  · rw [anyMap_remove_fst]
    exact h1
  · rw [anyMap_remove_fst]
    rfl

/-- C5 witness at a concrete map. -/
theorem anyMap_remove_spec_witness :
    (((AnyMap.new : TMap).insert 1 0 5).2.remove 1).2.contains_key 1 = false ∧
    (((AnyMap.new : TMap).insert 1 0 5).2.remove 1).1 = some (Value.new 0 5) := by
  have h := anyMap_remove_spec ((AnyMap.new : TMap).insert 1 0 5).2 1
    (by unfold AnyMap.WF; decide)
  refine ⟨h.1, ?_⟩
  rw [h.2.2.1]
  decide

/-- C6: in every reachable state `len()` counts the distinct keys,
`is_empty()` holds iff `len()` is zero, and `clear()` yields the same
empty, fully usable map as `AnyMap::new()`. -/
theorem anyMap_len_spec [DecidableEq K] (m : AnyMap K Ty El)
    (hr : m.Reachable) :
    m.len = m.distinctKeyCount ∧
    (m.is_empty = true ↔ m.len = 0) ∧
    m.clear.len = 0 ∧
    m.clear.is_empty = true ∧
    m.clear = AnyMap.new := by
  refine ⟨?_, ?_, rfl, rfl, rfl⟩
  · have hwf := reachable_wf m hr
    unfold AnyMap.distinctKeyCount AnyMap.len
    rw [List.dedup_eq_self.mpr hwf]
    simp
  · cases m with
    | mk l => cases l <;> simp [AnyMap.is_empty, AnyMap.len]

/-- C6 witness at a concrete reachable map. -/
theorem anyMap_len_spec_witness :
    ((AnyMap.new : TMap).insert_val 1 (Value.new 0 5)).2.len =
      ((AnyMap.new : TMap).insert_val 1 (Value.new 0 5)).2.distinctKeyCount := by
  have h := anyMap_len_spec ((AnyMap.new : TMap).insert_val 1 (Value.new 0 5)).2
    (AnyMap.Reachable.insert_val 1 (Value.new 0 5) AnyMap.Reachable.new)
  exact h.1

/-- C7: no operation fails fatally under misuse: a missing key makes
`get`, `get_typed` return `none` and `remove` return `none` leaving the
map unchanged; a type mismatch makes `as_type` return `none`; `clear` on
an empty map is a no-op.  All operations are total functions. -/
theorem anyMap_total_safety [DecidableEq K] [DecidableEq Ty]
    (m : AnyMap K Ty El) (k : K) (T : Ty) (w : Value Ty El) :
    (m.contains_key k = false →
      m.get k = none ∧ m.get_typed T k = none ∧ m.remove k = (none, m)) ∧
    (w.is T = false → w.as_type T = none) ∧
    (AnyMap.new : AnyMap K Ty El).clear = AnyMap.new := by
  refine ⟨?_, as_type_eq_none_of_is_false w T, rfl⟩
  intro hno
  have hget : m.get k = none := (contains_key_eq_false_iff m k).mp hno
  exact ⟨hget, by simp [AnyMap.get_typed, hget], anyMap_remove_absent m k hget⟩

/-- C7 witness: misuse cases at a concrete map. -/
theorem anyMap_total_safety_witness :
    ((AnyMap.new : TMap).insert 1 0 5).2.get 2 = none ∧
    ((AnyMap.new : TMap).insert 1 0 5).2.remove 2 =
      (none, ((AnyMap.new : TMap).insert 1 0 5).2) ∧
    (Value.new 0 5 : Value Nat TEl).as_type 1 = none := by
  have h := anyMap_total_safety ((AnyMap.new : TMap).insert 1 0 5).2 2 1
    (Value.new 0 5 : Value Nat TEl)
  exact ⟨(h.1 (by decide)).1, (h.1 (by decide)).2.2, h.2.1 (by decide)⟩

/-- C8: `Value::new` wraps a payload of any storable type and always
succeeds: the resulting `Value` carries exactly the given type tag and
payload, with no further constraint on the type. -/
theorem value_new_total (T : Ty) (v : El T) :
    (Value.new T v).into_inner = ⟨T, v⟩ ∧ (Value.new T v).ty = T :=
  ⟨rfl, rfl⟩

/-- C9: `insert` and `remove` at key `k` do not change what is observed
at any other key `k'`, through `get`, `contains_key` or `get_typed`. -/
theorem anyMap_frame_spec [DecidableEq K] [DecidableEq Ty]
    (m : AnyMap K Ty El) (k k' : K) (hne : k' ≠ k) (T : Ty) (v : El T) :
    (m.insert k T v).2.get k' = m.get k' ∧
    (m.remove k).2.get k' = m.get k' ∧
    (m.insert k T v).2.contains_key k' = m.contains_key k' ∧
    (m.remove k).2.contains_key k' = m.contains_key k' ∧
    (∀ U : Ty, (m.insert k T v).2.get_typed U k' = m.get_typed U k' ∧
               (m.remove k).2.get_typed U k' = m.get_typed U k') := by
  have hi : (m.insert k T v).2.get k' = m.get k' :=
    anyMap_get_insert_val_ne m k k' hne (Value.new T v)
  have hr : (m.remove k).2.get k' = m.get k' := anyMap_get_remove_ne m k k' hne
  exact ⟨hi, hr, by simp [AnyMap.contains_key, hi], by simp [AnyMap.contains_key, hr],
    fun U => ⟨by simp [AnyMap.get_typed, hi], by simp [AnyMap.get_typed, hr]⟩⟩

/-- C9 witness at a concrete map and distinct keys. -/
theorem anyMap_frame_spec_witness :
    (((AnyMap.new : TMap).insert 1 0 5).2.insert 2 3 9).2.get 1 =
      ((AnyMap.new : TMap).insert 1 0 5).2.get 1 ∧
    (((AnyMap.new : TMap).insert 1 0 5).2.remove 2).2.get 1 =
      ((AnyMap.new : TMap).insert 1 0 5).2.get 1 := by
  have h := anyMap_frame_spec ((AnyMap.new : TMap).insert 1 0 5).2 2 1 (by decide) 3 9
  exact ⟨h.1, h.2.1⟩

/-- C10: the `Default` implementation produces `AnyMap::new()`: an empty
map with `len() = 0`, `is_empty()` true, and no key present. -/
theorem anyMap_default_spec [DecidableEq K] :
    (default : AnyMap K Ty El) = AnyMap.new ∧
    (default : AnyMap K Ty El).len = 0 ∧
    (default : AnyMap K Ty El).is_empty = true ∧
    ∀ k : K, (default : AnyMap K Ty El).contains_key k = false :=
  ⟨rfl, rfl, rfl, fun _ => rfl⟩
